import Mathlib

/-
Verification of the core conversion pipeline of a CLI text-to-speech batch
tool (source: t_t_s/TextToSpeech.py).

The shallow embedding below models the three components the specification
talks about:

  * `tts_bytes_with_retry` — the retrying job runner.  The external gTTS
    service is modelled by an adapter function from the synthesis call
    number (1-based, per job) to an outcome; time.sleep calls are recorded
    in a `sleeps` log; `raise last_err` with `last_err = None` (which in
    Python raises a TypeError, not a SynthesisError) is modelled by the
    distinguished error `RunnerErr.raiseNone`.  Delays are modelled as
    rationals (0.4 is 2/5); the products with integer powers of two are
    exact in the source as well.

  * `generate_all_parallel` — the worker-pool dispatcher and aggregator.
    Thread completion order (the order `as_completed` yields futures) is
    abstracted as an explicit `order : List Nat` argument, quantified over
    all permutations of 1..N in the theorems.  The per-index synthesis and
    persist outcomes are supplied by a `BatchEnv`.  `max_workers` and
    `rate_limit_delay` only influence timing, never which results are
    collected, so they are carried but unused.  Python's stable list.sort
    with a key is modelled by a stable insertion sort `sortByKey`; the
    source sorts successes by int(basename stem) (the index baked into the
    idx.mp3 filename) and failures by the (index, error) pair itself,
    which with distinct indices orders by index.

  * `split_into_paragraphs` — re.split of the pattern (a run of two or
    more consecutive newline sequences, each an optional carriage return
    followed by a newline) applied to the stripped text, each part
    stripped, empty parts discarded.  Strings are lists of characters;
    Python str.strip on ASCII whitespace is `strip`.
-/

/-- Error raised by the external synthesis service (gTTS). -/
structure SynthErr where
  code : Nat
deriving DecidableEq

/-- Error raised while persisting bytes to disk (open/write). -/
structure IoErr where
  code : Nat
deriving DecidableEq

/-- What `tts_bytes_with_retry` can raise: the last synthesis error after
exhausting attempts, or the TypeError produced by `raise last_err` when
`last_err` is still None (zero attempts executed). -/
inductive RunnerErr where
  | synth : SynthErr → RunnerErr
  | raiseNone : RunnerErr
deriving DecidableEq

/-- What a batch job can raise: an error propagated out of the retrying
runner, or an error from writing the output file. -/
inductive JobErr where
  | runner : RunnerErr → JobErr
  | ioFail : IoErr → JobErr
deriving DecidableEq

deriving instance DecidableEq for Except

/-- Result of one run of the retrying job runner: the returned bytes or the
raised error, together with the number of synthesis calls made and the log
of sleep durations, in order. -/
structure RunResult where
  outcome : Except RunnerErr Nat
  calls : Nat
  sleeps : List ℚ
deriving DecidableEq

/-- The synthesis adapter of one job: maps the 1-based call number to bytes
or a synthesis error.  Models the fallible external text-to-speech call. -/
abbrev Adapter := Nat → Except SynthErr Nat

/-- The attempt loop of `tts_bytes_with_retry`: `remaining` attempts left,
`attempt` is the 1-based number of the next attempt, `lastErr` the error of
the previous attempt (None initially), `calls` and `sleeps` accumulate.
On failure the code sleeps base_delay * 2^(attempt-1) inside the loop body,
after every failed attempt including the final one, then falls through to
`raise last_err`. -/
def ttsAux (adapter : Adapter) (base_delay : ℚ) :
    Nat → Nat → Option SynthErr → Nat → List ℚ → RunResult
  | 0, _, lastErr, calls, sleeps =>
      ⟨.error (match lastErr with
        | some e => .synth e
        | none => .raiseNone), calls, sleeps⟩
  | remaining + 1, attempt, _, calls, sleeps =>
      match adapter (calls + 1) with
      | .ok b => ⟨.ok b, calls + 1, sleeps⟩
      | .error e =>
          ttsAux adapter base_delay remaining (attempt + 1) (some e) (calls + 1)
            (sleeps ++ [base_delay * ((2 ^ (attempt - 1) : Nat) : ℚ)])

/-- `tts_bytes_with_retry(text, retries=3, base_delay=0.4)` from the source:
`for attempt in range(1, retries + 1)` runs `max 0 retries` iterations
(`Int.toNat`), so any non-positive `retries` runs the loop zero times. -/
def tts_bytes_with_retry (adapter : Adapter) (retries : Int) (base_delay : ℚ) :
    RunResult :=
  ttsAux adapter base_delay retries.toNat 1 none 0 []

/-- An adapter stub that fails on every call. -/
def alwaysFailSynth : Adapter := fun k => .error ⟨k⟩

/-- An adapter stub that fails on calls 1 and 2 and succeeds from call 3. -/
def failTwiceSynth : Adapter := fun k => if k ≤ 2 then .error ⟨k⟩ else .ok 5

/-- An adapter stub that fails on calls 1..3 and succeeds from call 4. -/
def failThriceSynth : Adapter := fun k => if k ≤ 3 then .error ⟨k⟩ else .ok 99

/-- An adapter stub that succeeds on every call. -/
def alwaysOkSynth : Adapter := fun _ => .ok 7

/-- Closed form of the attempt loop when the adapter fails on every call:
all `rem` attempts are made, a sleep is logged after each one (the final
attempt included), and the error of the last call is raised. -/
theorem ttsAux_all_fail (adapter : Adapter) (base_delay : ℚ)
    (errs : Nat → SynthErr) (hfail : ∀ k, adapter k = .error (errs k)) :
    ∀ rem attempt calls sleeps, 1 ≤ rem →
      ttsAux adapter base_delay rem attempt none calls sleeps =
        ⟨.error (.synth (errs (calls + rem))), calls + rem,
          sleeps ++ (List.range' attempt rem).map
            (fun k => base_delay * ((2 ^ (k - 1) : Nat) : ℚ))⟩ := by
  have main : ∀ rem, 1 ≤ rem → ∀ attempt lastErr calls sleeps,
      ttsAux adapter base_delay rem attempt lastErr calls sleeps =
        ⟨.error (.synth (errs (calls + rem))), calls + rem,
          sleeps ++ (List.range' attempt rem).map
            (fun k => base_delay * ((2 ^ (k - 1) : Nat) : ℚ))⟩ := by
    intro rem
    induction rem with
    | zero => intro h; exact absurd h (by omega)
    | succ n ih =>
        intro _ attempt lastErr calls sleeps
        simp only [ttsAux, hfail]
        rcases Nat.eq_zero_or_pos n with hn | hn
        · subst hn
          simp [ttsAux, List.range']
        · rw [ih hn (attempt + 1) (some (errs (calls + 1))) (calls + 1)
            (sleeps ++ [base_delay * ((2 ^ (attempt - 1) : Nat) : ℚ)])]
          have h1 : calls + 1 + n = calls + (n + 1) := by omega
          rw [h1, List.range'_succ]
          simp
  intro rem attempt calls sleeps h
  exact main rem h attempt none calls sleeps

/-- The attempt loop only consults the adapter at call numbers
`calls + 1 .. calls + rem`; two adapters agreeing there give identical
results. -/
theorem ttsAux_congr (a a' : Adapter) (base_delay : ℚ) :
    ∀ rem attempt lastErr calls sleeps,
      (∀ k, calls < k → k ≤ calls + rem → a k = a' k) →
      ttsAux a base_delay rem attempt lastErr calls sleeps =
        ttsAux a' base_delay rem attempt lastErr calls sleeps := by
  intro rem
  induction rem with
  | zero => intro _ _ _ _ _; simp [ttsAux]
  | succ n ih =>
      intro attempt lastErr calls sleeps hagree
      rw [ttsAux, ttsAux, hagree (calls + 1) (by omega) (by omega)]
      cases a' (calls + 1) with
      | ok b => rfl
      | error e =>
          exact ih (attempt + 1) (some e) (calls + 1) _
            (fun k h1 h2 => hagree k (by omega) (by omega))

/-- C1 counterexample: with max_attempts = 3 and an adapter that fails on
every call, the runner performs three waits (2/5, 4/5, 8/5) — one after the
final failed attempt as well — whereas the claim allows waits only for
attempts 1..max_attempts-1, i.e. two waits.  The sleep is executed inside
the except branch unconditionally, so a trailing wait precedes the raise. -/
theorem retry_trailing_sleep_cex :
    (tts_bytes_with_retry alwaysFailSynth 3 (2/5)).sleeps = [2/5, 4/5, 8/5]
    ∧ (tts_bytes_with_retry alwaysFailSynth 3 (2/5)).sleeps.length ≠ 3 - 1 := by
  have h : (tts_bytes_with_retry alwaysFailSynth 3 (2/5)).sleeps = [2/5, 4/5, 8/5] := by
    norm_num [tts_bytes_with_retry, ttsAux, alwaysFailSynth]
  exact ⟨h, by rw [h]; decide⟩

/-- C1 (amended): when every synthesis attempt fails, the runner performs
the waits base_delay * 2^(attempt-1) for attempts 1 through max_attempts —
including a trailing wait after the final failed attempt — and then raises
the error of the last attempt. -/
theorem retry_waits_every_failed_attempt (adapter : Adapter) (errs : Nat → SynthErr)
    (max_attempts : Int) (base_delay : ℚ)
    (hfail : ∀ k, adapter k = .error (errs k)) (hpos : 1 ≤ max_attempts) :
    (tts_bytes_with_retry adapter max_attempts base_delay).sleeps
      = (List.range' 1 max_attempts.toNat).map
          (fun k => base_delay * ((2 ^ (k - 1) : Nat) : ℚ))
    ∧ (tts_bytes_with_retry adapter max_attempts base_delay).outcome
      = .error (.synth (errs max_attempts.toNat)) := by
  have h1 : 1 ≤ max_attempts.toNat := by omega
  rw [tts_bytes_with_retry, ttsAux_all_fail adapter base_delay errs hfail _ 1 0 [] h1]
  simp

/-- Witness for C1 (amended) at max_attempts = 3, base_delay = 2/5, with the
always-failing adapter. -/
theorem retry_waits_every_failed_attempt_witness :
    (∀ k, alwaysFailSynth k = .error ⟨k⟩) ∧ (1:Int) ≤ 3
    ∧ ((tts_bytes_with_retry alwaysFailSynth 3 (2/5)).sleeps
        = (List.range' 1 (3:Int).toNat).map (fun k => (2/5 : ℚ) * ((2 ^ (k - 1) : Nat) : ℚ))
      ∧ (tts_bytes_with_retry alwaysFailSynth 3 (2/5)).outcome
        = .error (.synth ⟨(3:Int).toNat⟩)) :=
  ⟨fun _ => rfl, by norm_num,
    retry_waits_every_failed_attempt alwaysFailSynth (fun k => ⟨k⟩) 3 (2/5)
      (fun _ => rfl) (by norm_num)⟩

/-- C4: with max_attempts = 3, an always-failing adapter yields exactly 3
synthesis calls and the error of the third call; an adapter failing twice
then succeeding yields the successful bytes with exactly 3 calls made. -/
theorem run_with_retry_exhaustion_and_success (a b : Adapter) (errs : Nat → SynthErr)
    (bs : Nat) (base base' : ℚ)
    (ha : ∀ k, a k = .error (errs k))
    (hb1 : b 1 = .error (errs 1)) (hb2 : b 2 = .error (errs 2)) (hb3 : b 3 = .ok bs) :
    ((tts_bytes_with_retry a 3 base).calls = 3
      ∧ (tts_bytes_with_retry a 3 base).outcome = .error (.synth (errs 3)))
    ∧ ((tts_bytes_with_retry b 3 base').calls = 3
      ∧ (tts_bytes_with_retry b 3 base').outcome = .ok bs) := by
  have h3 : (3:Int).toNat = 3 := rfl
  constructor
  · rw [tts_bytes_with_retry, h3, ttsAux_all_fail a base errs ha 3 1 0 [] (by norm_num)]
    simp
  · rw [tts_bytes_with_retry, h3]
    simp [ttsAux, hb1, hb2, hb3]

/-- Witness for C4 with the always-failing and fail-twice adapter stubs. -/
theorem run_with_retry_exhaustion_and_success_witness :
    ((∀ k, alwaysFailSynth k = .error ⟨k⟩)
      ∧ failTwiceSynth 1 = .error ⟨1⟩ ∧ failTwiceSynth 2 = .error ⟨2⟩
      ∧ failTwiceSynth 3 = .ok 5)
    ∧ (((tts_bytes_with_retry alwaysFailSynth 3 (2/5)).calls = 3
        ∧ (tts_bytes_with_retry alwaysFailSynth 3 (2/5)).outcome = .error (.synth ⟨3⟩))
      ∧ ((tts_bytes_with_retry failTwiceSynth 3 (2/5)).calls = 3
        ∧ (tts_bytes_with_retry failTwiceSynth 3 (2/5)).outcome = .ok 5)) :=
  ⟨⟨fun _ => rfl, by decide, by decide, by decide⟩,
    run_with_retry_exhaustion_and_success alwaysFailSynth failTwiceSynth
      (fun k => ⟨k⟩) 5 (2/5) (2/5) (fun _ => rfl) (by decide) (by decide) (by decide)⟩

/-- C10: for any non-positive retries value the loop body never runs: zero
synthesis calls are made, no bytes are ever returned, and the raised error
is the TypeError from `raise None`, not a SynthesisError. -/
theorem retry_nonpositive_raises_none (adapter : Adapter) (retries : Int) (base_delay : ℚ)
    (h : retries ≤ 0) :
    (tts_bytes_with_retry adapter retries base_delay).calls = 0
    ∧ (tts_bytes_with_retry adapter retries base_delay).outcome = .error .raiseNone
    ∧ (∀ e, (tts_bytes_with_retry adapter retries base_delay).outcome ≠ .error (.synth e))
    ∧ (∀ bs, (tts_bytes_with_retry adapter retries base_delay).outcome ≠ .ok bs) := by
  have h0 : retries.toNat = 0 := by omega
  rw [tts_bytes_with_retry, h0]
  simp [ttsAux]

/-- Witness for C10 at retries = -1 with an adapter that would succeed. -/
theorem retry_nonpositive_raises_none_witness :
    (-1 : Int) ≤ 0
    ∧ ((tts_bytes_with_retry alwaysOkSynth (-1) (2/5)).calls = 0
      ∧ (tts_bytes_with_retry alwaysOkSynth (-1) (2/5)).outcome = .error .raiseNone
      ∧ (∀ e, (tts_bytes_with_retry alwaysOkSynth (-1) (2/5)).outcome ≠ .error (.synth e))
      ∧ (∀ bs, (tts_bytes_with_retry alwaysOkSynth (-1) (2/5)).outcome ≠ .ok bs)) :=
  ⟨by decide, retry_nonpositive_raises_none alwaysOkSynth (-1) (2/5) (by decide)⟩

/-- Stable insertion of `a` into `l`: `a` goes in front of the first element
with a strictly larger key, after all elements with smaller-or-equal keys.
Together with `sortByKey` this models Python's stable `list.sort(key=...)`. -/
def insertByKey {α : Type} (key : α → Nat) (a : α) : List α → List α
  | [] => [a]
  | b :: bs => if key a < key b then a :: b :: bs else b :: insertByKey key a bs

/-- Stable sort by a natural-number key (insertion sort). -/
def sortByKey {α : Type} (key : α → Nat) : List α → List α
  | [] => []
  | a :: as => insertByKey key a (sortByKey key as)

theorem insertByKey_perm {α : Type} (key : α → Nat) (a : α) :
    ∀ l : List α, (insertByKey key a l).Perm (a :: l) := by
  intro l
  induction l with
  | nil => simp [insertByKey]
  | cons b bs ih =>
      rw [insertByKey]
      by_cases h : key a < key b
      · rw [if_pos h]
      · rw [if_neg h]
        exact (ih.cons b).trans (List.Perm.swap a b bs)

theorem sortByKey_perm {α : Type} (key : α → Nat) :
    ∀ l : List α, (sortByKey key l).Perm l := by
  intro l
  induction l with
  | nil => simp [sortByKey]
  | cons a as ih => exact (insertByKey_perm key a (sortByKey key as)).trans (ih.cons a)

theorem insertByKey_sorted {α : Type} (key : α → Nat) (a : α) :
    ∀ l : List α, l.Pairwise (fun x y => key x ≤ key y) →
      (insertByKey key a l).Pairwise (fun x y => key x ≤ key y) := by
  intro l
  induction l with
  | nil => intro _; simp [insertByKey]
  | cons b bs ih =>
      intro h
      rw [List.pairwise_cons] at h
      rw [insertByKey]
      by_cases hab : key a < key b
      · rw [if_pos hab]
        refine List.pairwise_cons.mpr ⟨?_, List.pairwise_cons.mpr h⟩
        intro x hx
        rcases List.mem_cons.mp hx with rfl | hx
        · omega
        · have := h.1 x hx
          omega
      · rw [if_neg hab]
        refine List.pairwise_cons.mpr ⟨?_, ih h.2⟩
        intro x hx
        rcases List.mem_cons.mp ((insertByKey_perm key a bs).mem_iff.mp hx) with rfl | hx'
        · omega
        · exact h.1 x hx'

theorem sortByKey_sorted {α : Type} (key : α → Nat) :
    ∀ l : List α, (sortByKey key l).Pairwise (fun x y => key x ≤ key y) := by
  intro l
  induction l with
  | nil => simp [sortByKey]
  | cons a as ih => exact insertByKey_sorted key a (sortByKey key as) ih

/-- Two key-sorted lists that are permutations of each other and have no
duplicate keys are equal; the second is assumed strictly sorted. -/
theorem sorted_nodupkeys_perm_eq {α : Type} (key : α → Nat) :
    ∀ l₁ l₂ : List α, l₁.Perm l₂ →
      l₁.Pairwise (fun x y => key x ≤ key y) →
      l₂.Pairwise (fun x y => key x < key y) →
      l₁ = l₂ := by
  intro l₁
  induction l₁ with
  | nil => intro l₂ hp _ _; exact (hp.symm.eq_nil).symm
  | cons a t₁ ih =>
      intro l₂ hp hs₁ hs₂
      cases l₂ with
      | nil => exact absurd hp.eq_nil (by simp)
      | cons b t₂ =>
          rw [List.pairwise_cons] at hs₁ hs₂
          have hab : a = b := by
            have ha2 : a ∈ b :: t₂ := hp.mem_iff.mp (List.mem_cons_self a t₁)
            rcases List.mem_cons.mp ha2 with h | ha2
            · exact h
            · have hba : key b < key a := hs₂.1 a ha2
              have hb1 : b ∈ a :: t₁ := hp.symm.mem_iff.mp (List.mem_cons_self b t₂)
              rcases List.mem_cons.mp hb1 with h | hb1
              · exact h.symm
              · have hab' : key a ≤ key b := hs₁.1 b hb1
                omega
          subst hab
          rw [ih t₂ hp.cons_inv hs₁.2 hs₂.2]

/-- The external capabilities one batch consumes: for each paragraph index,
the synthesis adapter (call number → outcome of gtts.gTTS + write_to_fp)
and the persist outcome (bytes → outcome of writing idx.mp3). -/
structure BatchEnv where
  synthOf : Nat → Adapter
  persistOf : Nat → Nat → Except IoErr Unit

/-- The absolute path of a written output file: the destination folder plus
the index-determined basename idx.mp3. -/
structure OutPath where
  folder : String
  idx : Nat
deriving DecidableEq

/-- The body of `task(idx, text)` inside `generate_all_parallel`: an
optional rate-limit sleep (timing only), then
`tts_bytes_with_retry(text, retries=3, base_delay=0.4)` — the retry count
and backoff base are hardcoded at this call site in the source — then the
write of the bytes to out_folder/idx.mp3.  The text is what the paragraph
holds; the synthesis outcome is supplied by the adapter for this index. -/
def task (env : BatchEnv) (out_folder : String) (idx : Nat) (text : String) :
    Except JobErr OutPath :=
  match (tts_bytes_with_retry (env.synthOf idx) 3 (2/5)).outcome with
  | .error e => .error (.runner e)
  | .ok data =>
      match env.persistOf idx data with
      | .error e => .error (.ioFail e)
      | .ok _ => .ok ⟨out_folder, idx⟩

/-- What the `as_completed` loop appends to success_paths when the future
of `idx` completes: the written path on success, nothing on failure. -/
def succSel (env : BatchEnv) (ps : List String) (folder : String) (idx : Nat) :
    Option OutPath :=
  match task env folder idx (ps.getD (idx - 1) "") with
  | .ok p => some p
  | .error _ => none

/-- What the `as_completed` loop appends to failures when the future of
`idx` completes: the pair (idx, raised error) on failure. -/
def failSel (env : BatchEnv) (ps : List String) (folder : String) (idx : Nat) :
    Option (Nat × JobErr) :=
  match task env folder idx (ps.getD (idx - 1) "") with
  | .ok _ => none
  | .error e => some (idx, e)

/-- `generate_all_parallel`: jobs are submitted for indices 1..N
(enumerate(paragraphs, start=1)); the `as_completed` loop observes them in
an arbitrary completion order (the `order` argument, a permutation of
1..N), appending each job's success path or (index, error); finally
success_paths is sorted by int(basename stem) — the index — and failures
by the (index, error) pair, which with unique indices orders by index.
`max_workers` bounds in-flight threads and `rate_limit_delay` delays each
task; both affect timing only, never the collected results. -/
def generate_all_parallel (env : BatchEnv) (paragraphs : List String)
    (out_folder : String) (max_workers : Nat) (rate_limit_delay : ℚ)
    (order : List Nat) : List OutPath × List (Nat × JobErr) :=
  (sortByKey (fun p => p.idx) (order.filterMap (succSel env paragraphs out_folder)),
   sortByKey (fun f => f.1) (order.filterMap (failSel env paragraphs out_folder)))

/-- The report's success component in submission order: what the batch
produces when jobs complete in index order. -/
def canonSucc (env : BatchEnv) (ps : List String) (folder : String) :
    List OutPath :=
  (List.range' 1 ps.length).filterMap (succSel env ps folder)

/-- The report's failure component in submission order. -/
def canonFail (env : BatchEnv) (ps : List String) (folder : String) :
    List (Nat × JobErr) :=
  (List.range' 1 ps.length).filterMap (failSel env ps folder)

theorem task_ok_shape (env : BatchEnv) (folder : String) (idx : Nat) (t : String)
    (p : OutPath) (h : task env folder idx t = .ok p) : p = ⟨folder, idx⟩ := by
  unfold task at h
  rcases ho : (tts_bytes_with_retry (env.synthOf idx) 3 (2/5)).outcome with e | d
  · rw [ho] at h; simp at h
  · rw [ho] at h
    simp only [] at h
    rcases hp : env.persistOf idx d with e | u
    · rw [hp] at h; simp at h
    · rw [hp] at h; simp at h; exact h.symm

theorem succSel_key (env : BatchEnv) (ps : List String) (folder : String)
    (idx : Nat) (p : OutPath) (h : succSel env ps folder idx = some p) :
    p.idx = idx := by
  unfold succSel at h
  cases htask : task env folder idx (ps.getD (idx - 1) "") with
  | error e => rw [htask] at h; exact absurd h (by simp)
  | ok q =>
      rw [htask] at h
      simp at h
      rw [← h, task_ok_shape env folder idx _ q htask]

theorem failSel_key (env : BatchEnv) (ps : List String) (folder : String)
    (idx : Nat) (x : Nat × JobErr) (h : failSel env ps folder idx = some x) :
    x.1 = idx := by
  unfold failSel at h
  cases htask : task env folder idx (ps.getD (idx - 1) "") with
  | error e => rw [htask] at h; simp at h; rw [← h]
  | ok q => rw [htask] at h; exact absurd h (by simp)

theorem sel_complement (env : BatchEnv) (ps : List String) (folder : String)
    (idx : Nat) :
    (succSel env ps folder idx).isSome = !(failSel env ps folder idx).isSome := by
  unfold succSel failSel
  cases task env folder idx (ps.getD (idx - 1) "") <;> simp

/-- Keys of a filterMap whose produced elements carry their source index. -/
theorem map_key_filterMap {β : Type} (key : β → Nat) (g : Nat → Option β)
    (hkey : ∀ a b, g a = some b → key b = a) :
    ∀ l : List Nat, (l.filterMap g).map key = l.filter (fun a => (g a).isSome) := by
  intro l
  induction l with
  | nil => rfl
  | cons a t ih =>
      cases hg : g a with
      | none => simp [List.filterMap_cons, List.filter_cons, hg, ih]
      | some b => simp [List.filterMap_cons, List.filter_cons, hg, ih, hkey a b hg]

/-- Two filterMaps over the same list, one defined exactly where the other
is not, have lengths summing to the list's length. -/
theorem length_filterMap_partition {β γ : Type} (g : Nat → Option β)
    (g' : Nat → Option γ) (h : ∀ a, (g a).isSome = !(g' a).isSome) :
    ∀ l : List Nat, (l.filterMap g).length + (l.filterMap g').length = l.length := by
  intro l
  induction l with
  | nil => rfl
  | cons a t ih =>
      have ha := h a
      cases hg : g a with
      | none =>
          rw [hg] at ha
          cases hg' : g' a with
          | none => rw [hg'] at ha; simp at ha
          | some c => simp [List.filterMap_cons, hg, hg']; omega
      | some b =>
          rw [hg] at ha
          cases hg' : g' a with
          | none => simp [List.filterMap_cons, hg, hg']; omega
          | some c => rw [hg'] at ha; simp at ha

/-- A filterMap whose elements carry their source index is strictly
key-sorted whenever the source list is strictly increasing. -/
theorem pairwise_filterMap_lt {β : Type} (key : β → Nat) (g : Nat → Option β)
    (hkey : ∀ a b, g a = some b → key b = a) :
    ∀ l : List Nat, l.Pairwise (· < ·) →
      (l.filterMap g).Pairwise (fun x y => key x < key y) := by
  intro l
  induction l with
  | nil => intro _; simp
  | cons a t ih =>
      intro hp
      rw [List.pairwise_cons] at hp
      cases hg : g a with
      | none => simpa [List.filterMap_cons, hg] using ih hp.2
      | some b =>
          rw [List.filterMap_cons, hg]
          refine List.pairwise_cons.mpr ⟨?_, ih hp.2⟩
          intro y hy
          obtain ⟨x, hx, hgx⟩ := List.mem_filterMap.mp hy
          rw [hkey a b hg, hkey x y hgx]
          exact hp.1 x hx

/-- The aggregation boundary of `generate_all_parallel`: whatever
permutation of 1..N the jobs complete in, the sorted report equals the
report of completion in submission order.  This is the determinism of the
Result Aggregator. -/
theorem generate_eq_canon (env : BatchEnv) (ps : List String) (folder : String)
    (mw : Nat) (rld : ℚ) (order : List Nat)
    (h : order.Perm (List.range' 1 ps.length)) :
    generate_all_parallel env ps folder mw rld order
      = (canonSucc env ps folder, canonFail env ps folder) := by
  have hkey1 : ∀ a b, succSel env ps folder a = some b → b.idx = a :=
    fun a b hb => succSel_key env ps folder a b hb
  have hkey2 : ∀ a (b : Nat × JobErr), failSel env ps folder a = some b → b.1 = a :=
    fun a b hb => failSel_key env ps folder a b hb
  have hrange : (List.range' 1 ps.length).Pairwise (· < ·) :=
    List.pairwise_lt_range' 1 ps.length
  have hlt1 : (canonSucc env ps folder).Pairwise (fun x y => x.idx < y.idx) :=
    pairwise_filterMap_lt _ _ hkey1 _ hrange
  have hlt2 : (canonFail env ps folder).Pairwise (fun x y => x.1 < y.1) :=
    pairwise_filterMap_lt _ _ hkey2 _ hrange
  have e1 : sortByKey (fun p => p.idx) (order.filterMap (succSel env ps folder))
      = canonSucc env ps folder :=
    sorted_nodupkeys_perm_eq _ _ _
      ((sortByKey_perm _ _).trans (h.filterMap _)) (sortByKey_sorted _ _) hlt1
  have e2 : sortByKey (fun f => f.1) (order.filterMap (failSel env ps folder))
      = canonFail env ps folder :=
    sorted_nodupkeys_perm_eq _ _ _
      ((sortByKey_perm _ _).trans (h.filterMap _)) (sortByKey_sorted _ _) hlt2
  unfold generate_all_parallel
  rw [e1, e2]

/-- C2: for every batch and every completion order, |successes| +
|failures| = N and the indices across the two sequences are exactly 1..N,
each appearing in exactly one of the two (their concatenation is a
permutation of 1..N, which has no duplicates). -/
theorem batch_index_partition (env : BatchEnv) (ps : List String)
    (folder : String) (mw : Nat) (rld : ℚ) (order : List Nat)
    (h : order.Perm (List.range' 1 ps.length)) :
    (generate_all_parallel env ps folder mw rld order).1.length
      + (generate_all_parallel env ps folder mw rld order).2.length = ps.length
    ∧ ((generate_all_parallel env ps folder mw rld order).1.map (fun p => p.idx)
        ++ (generate_all_parallel env ps folder mw rld order).2.map (fun f => f.1)).Perm
          (List.range' 1 ps.length) := by
  rw [generate_eq_canon env ps folder mw rld order h]
  constructor
  · have := length_filterMap_partition (succSel env ps folder) (failSel env ps folder)
      (sel_complement env ps folder) (List.range' 1 ps.length)
    unfold canonSucc canonFail
    simpa using this
  · unfold canonSucc canonFail
    rw [map_key_filterMap _ _ (fun a b hb => succSel_key env ps folder a b hb),
      map_key_filterMap _ _ (fun a b hb => failSel_key env ps folder a b hb)]
    have hcompl : (fun i => (failSel env ps folder i).isSome)
        = (fun i => !(succSel env ps folder i).isSome) := by
      funext i
      rw [sel_complement env ps folder i, Bool.not_not]
    rw [hcompl]
    exact List.filter_append_perm _ _

/-- A two-paragraph environment in which index 1 fails permanently and
index 2 succeeds. -/
def mixedEnv : BatchEnv :=
  ⟨fun idx => if idx = 1 then alwaysFailSynth else alwaysOkSynth, fun _ _ => .ok ()⟩

/-- Witness for C2: two paragraphs, completion order 2 then 1, index 1
failing permanently and index 2 succeeding. -/
theorem batch_index_partition_witness :
    ([2, 1].Perm (List.range' 1 (["a", "b"] : List String).length))
    ∧ ((generate_all_parallel mixedEnv ["a", "b"] "out" 6 0 [2, 1]).1.length
        + (generate_all_parallel mixedEnv ["a", "b"] "out" 6 0 [2, 1]).2.length
        = (["a", "b"] : List String).length
      ∧ ((generate_all_parallel mixedEnv ["a", "b"] "out" 6 0 [2, 1]).1.map (fun p => p.idx)
          ++ (generate_all_parallel mixedEnv ["a", "b"] "out" 6 0 [2, 1]).2.map (fun f => f.1)).Perm
            (List.range' 1 (["a", "b"] : List String).length)) :=
  ⟨by decide, batch_index_partition mixedEnv ["a", "b"] "out" 6 0 [2, 1] (by decide)⟩

/-- C3: the batch report is identical for any two completion orders, and
both result sequences are sorted ascending by paragraph index. -/
theorem batch_deterministic_sorted (env : BatchEnv) (ps : List String)
    (folder : String) (mw : Nat) (rld : ℚ) (order₁ order₂ : List Nat)
    (h₁ : order₁.Perm (List.range' 1 ps.length))
    (h₂ : order₂.Perm (List.range' 1 ps.length)) :
    generate_all_parallel env ps folder mw rld order₁
      = generate_all_parallel env ps folder mw rld order₂
    ∧ (generate_all_parallel env ps folder mw rld order₁).1.Pairwise
        (fun x y => x.idx ≤ y.idx)
    ∧ (generate_all_parallel env ps folder mw rld order₁).2.Pairwise
        (fun x y => x.1 ≤ y.1) := by
  have hrange : (List.range' 1 ps.length).Pairwise (· < ·) :=
    List.pairwise_lt_range' 1 ps.length
  rw [generate_eq_canon env ps folder mw rld order₁ h₁,
    generate_eq_canon env ps folder mw rld order₂ h₂]
  refine ⟨rfl, ?_, ?_⟩
  · exact (pairwise_filterMap_lt _ _
      (fun a b hb => succSel_key env ps folder a b hb) _ hrange).imp le_of_lt
  · exact (pairwise_filterMap_lt _ _
      (fun a b hb => failSel_key env ps folder a b hb) _ hrange).imp le_of_lt

/-- Witness for C3: the two-paragraph environment under completion orders
[2, 1] and [1, 2]. -/
theorem batch_deterministic_sorted_witness :
    ([2, 1].Perm (List.range' 1 (["a", "b"] : List String).length))
    ∧ ([1, 2].Perm (List.range' 1 (["a", "b"] : List String).length))
    ∧ (generate_all_parallel mixedEnv ["a", "b"] "out" 6 0 [2, 1]
        = generate_all_parallel mixedEnv ["a", "b"] "out" 6 0 [1, 2]
      ∧ (generate_all_parallel mixedEnv ["a", "b"] "out" 6 0 [2, 1]).1.Pairwise
          (fun x y => x.idx ≤ y.idx)
      ∧ (generate_all_parallel mixedEnv ["a", "b"] "out" 6 0 [2, 1]).2.Pairwise
          (fun x y => x.1 ≤ y.1)) :=
  ⟨by decide, by decide,
    batch_deterministic_sorted mixedEnv ["a", "b"] "out" 6 0 [2, 1] [1, 2]
      (by decide) (by decide)⟩

/-- An environment whose synthesis fails on calls 1..3 of every index and
would succeed from call 4 on. -/
def failThriceEnv : BatchEnv := ⟨fun _ => failThriceSynth, fun _ _ => .ok ()⟩

/-- C5 counterexample: the batch cannot be given a different retry count.
The adapter fails exactly three times and then succeeds; calling the
runner directly with max_attempts = 4 succeeds, yet the batch — whose
dispatch path hardcodes retries=3, base_delay=0.4 — reports the paragraph
as a failure with the third call's error, and there is no batch parameter
through which 4 could have been supplied. -/
theorem batch_retry_not_overridable_cex :
    (tts_bytes_with_retry failThriceSynth 4 (2/5)).outcome = .ok 99
    ∧ (generate_all_parallel failThriceEnv ["hello"] "out" 6 0 [1]).1 = []
    ∧ (generate_all_parallel failThriceEnv ["hello"] "out" 6 0 [1]).2
      = [(1, .runner (.synth ⟨3⟩))] :=
  ⟨by decide, by decide, by decide⟩

/-- C5 (amended): the per-batch retry configuration is fixed: every job
calls the runner with retries=3 and base_delay=0.4, so the batch report
depends only on the first three synthesis outcomes of each index — two
environments agreeing there (and on persistence) produce identical
reports, whatever happens from the fourth call on. -/
theorem batch_retry_config_hardcoded (env env' : BatchEnv) (ps : List String)
    (folder : String) (mw : Nat) (rld : ℚ) (order : List Nat)
    (hs : ∀ idx k, 1 ≤ k → k ≤ 3 → env.synthOf idx k = env'.synthOf idx k)
    (hp : ∀ idx b, env.persistOf idx b = env'.persistOf idx b) :
    generate_all_parallel env ps folder mw rld order
      = generate_all_parallel env' ps folder mw rld order := by
  have htask : ∀ idx t, task env folder idx t = task env' folder idx t := by
    intro idx t
    unfold task
    have hrun : tts_bytes_with_retry (env.synthOf idx) 3 (2/5)
        = tts_bytes_with_retry (env'.synthOf idx) 3 (2/5) := by
      unfold tts_bytes_with_retry
      exact ttsAux_congr _ _ _ (3:Int).toNat 1 none 0 []
        (fun k h1 h2 => hs idx k (by omega) (by omega))
    rw [hrun]
    simp only [hp]
  have hsel1 : succSel env ps folder = succSel env' ps folder := by
    funext idx; unfold succSel; rw [htask]
  have hsel2 : failSel env ps folder = failSel env' ps folder := by
    funext idx; unfold failSel; rw [htask]
  unfold generate_all_parallel
  rw [hsel1, hsel2]

/-- Batch env equal to `failThriceEnv` on the first three calls of every
index but succeeding with different bytes from call 4 on. -/
def failThriceEnvAlt : BatchEnv :=
  ⟨fun _ k => if k ≤ 3 then .error ⟨k⟩ else .ok 42, fun _ _ => .ok ()⟩

/-- Witness for C5 (amended): two environments agreeing on calls 1..3. -/
theorem batch_retry_config_hardcoded_witness :
    (∀ idx k, 1 ≤ k → k ≤ 3 →
      failThriceEnv.synthOf idx k = failThriceEnvAlt.synthOf idx k)
    ∧ (∀ idx b, failThriceEnv.persistOf idx b = failThriceEnvAlt.persistOf idx b)
    ∧ generate_all_parallel failThriceEnv ["hello"] "out" 6 0 [1]
      = generate_all_parallel failThriceEnvAlt ["hello"] "out" 6 0 [1] :=
  ⟨fun idx k _ h3 => by
      simp [failThriceEnv, failThriceEnvAlt, failThriceSynth, h3],
    fun idx b => rfl,
    batch_retry_config_hardcoded failThriceEnv failThriceEnvAlt ["hello"] "out" 6 0 [1]
      (fun idx k _ h3 => by
        simp [failThriceEnv, failThriceEnvAlt, failThriceSynth, h3])
      (fun idx b => rfl)⟩

/-- An environment in which every index fails permanently. -/
def allFailEnv : BatchEnv := ⟨fun _ => alwaysFailSynth, fun _ _ => .ok ()⟩

/-- C6 counterexample: a concrete failed batch.  The recorded failure entry
is the pair (1, error of the last attempt) — `failures.append((idx, e))` —
carrying the paragraph index and the last error only; no attempts count is
part of the entry. -/
theorem failure_entry_is_pair_cex :
    (generate_all_parallel allFailEnv ["x"] "out" 6 0 [1]).2
      = [(1, JobErr.runner (.synth ⟨3⟩))] := by decide

/-- C6 (amended): every element of the failure sequence is the pair of a
paragraph index in 1..N and the error raised by that index's job; the
number of attempts made is not recorded in the entry. -/
theorem failure_entries_carry_index_and_error (env : BatchEnv) (ps : List String)
    (folder : String) (mw : Nat) (rld : ℚ) (order : List Nat)
    (h : order.Perm (List.range' 1 ps.length)) :
    ∀ x ∈ (generate_all_parallel env ps folder mw rld order).2,
      x.1 ∈ List.range' 1 ps.length
      ∧ ∃ e, task env folder x.1 (ps.getD (x.1 - 1) "") = .error e ∧ x = (x.1, e) := by
  rw [generate_eq_canon env ps folder mw rld order h]
  intro x hx
  obtain ⟨i, hi, hsel⟩ := List.mem_filterMap.mp hx
  have hix : x.1 = i := failSel_key env ps folder i x hsel
  subst hix
  refine ⟨hi, ?_⟩
  unfold failSel at hsel
  rcases htask : task env folder x.1 (ps.getD (x.1 - 1) "") with e | q
  · rw [htask] at hsel
    simp at hsel
    exact ⟨e, rfl, hsel.symm⟩
  · rw [htask] at hsel
    exact absurd hsel (by simp)

/-- Witness for C6 (amended): the all-failing single-paragraph batch. -/
theorem failure_entries_carry_index_and_error_witness :
    ([1].Perm (List.range' 1 (["x"] : List String).length))
    ∧ (∀ x ∈ (generate_all_parallel allFailEnv ["x"] "out" 6 0 [1]).2,
      x.1 ∈ List.range' 1 (["x"] : List String).length
      ∧ ∃ e, task allFailEnv "out" x.1 ((["x"] : List String).getD (x.1 - 1) "") = .error e
          ∧ x = (x.1, e)) :=
  ⟨by decide,
    failure_entries_carry_index_and_error allFailEnv ["x"] "out" 6 0 [1] (by decide)⟩

/-- The ASCII whitespace characters Python str.strip removes and that make
a line blank for the specification's purposes. -/
def isWS (c : Char) : Bool :=
  c = ' ' || c = '\t' || c = '\n' || c = '\r' || c = '\x0b' || c = '\x0c'

/-- Python str.strip(): remove leading and trailing whitespace. -/
def strip (s : List Char) : List Char :=
  ((s.dropWhile isWS).reverse.dropWhile isWS).reverse

/-- Greedy count of leading repetitions of the separator atom — an optional
carriage return followed by a newline — together with the rest of the
string after the maximal run.  This is how the regex engine consumes the
repetitions of the atom when matching the blank-line separator pattern. -/
def repMax : List Char → Nat × List Char
  | [] => (0, [])
  | c :: cs =>
    if c = '\n' then
      ((repMax cs).1 + 1, (repMax cs).2)
    else if c = '\r' then
      match cs with
      | [] => (0, c :: cs)
      | d :: ds =>
          if d = '\n' then ((repMax ds).1 + 1, (repMax ds).2)
          else (0, c :: cs)
    else (0, c :: cs)

/-- The leftmost-greedy match of the separator pattern (two or more
repetitions of the atom) at the front of the string: the rest after the
maximal run when at least two repetitions match, none otherwise. -/
def trySep (s : List Char) : Option (List Char) :=
  if 2 ≤ (repMax s).1 then some (repMax s).2 else none

theorem repMax_nil : repMax [] = (0, []) := rfl

theorem repMax_lf (cs : List Char) :
    repMax ('\n' :: cs) = ((repMax cs).1 + 1, (repMax cs).2) := by
  rw [repMax.eq_def]; simp

theorem repMax_crlf (ds : List Char) :
    repMax ('\r' :: '\n' :: ds) = ((repMax ds).1 + 1, (repMax ds).2) := by
  rw [repMax.eq_def]; simp

theorem repMax_cr_nil : repMax ['\r'] = (0, ['\r']) := by
  rw [repMax.eq_def]; simp

theorem repMax_cr_not_lf (d : Char) (ds : List Char) (hd : d ≠ '\n') :
    repMax ('\r' :: d :: ds) = (0, '\r' :: d :: ds) := by
  rw [repMax.eq_def]; simp [hd]

theorem repMax_other (c : Char) (cs : List Char) (hc : c ≠ '\n') (hc' : c ≠ '\r') :
    repMax (c :: cs) = (0, c :: cs) := by
  rw [repMax.eq_def]; simp only [hc, hc', if_false, ite_false, if_neg]

theorem repMax_len : ∀ s : List Char, (repMax s).2.length + (repMax s).1 ≤ s.length := by
  intro s
  induction s using repMax.induct with
  | case1 => simp [repMax_nil]
  | case2 ds ih => rw [repMax_lf]; simp only [List.length_cons]; omega
  | case3 _ => rw [repMax_cr_nil]; simp
  | case4 ds _ ih => rw [repMax_crlf]; simp only [List.length_cons]; omega
  | case5 d ds hd _ => rw [repMax_cr_not_lf d ds hd]; simp
  | case6 d ds hd hd' => rw [repMax_other d ds hd hd']; simp

/-- Appending a suffix can only increase the greedy repetition count. -/
theorem repMax_append_le (t : List Char) :
    ∀ s : List Char, (repMax s).1 ≤ (repMax (s ++ t)).1 := by
  intro s
  induction s using repMax.induct with
  | case1 => simp [repMax_nil]
  | case2 ds ih =>
      rw [List.cons_append, repMax_lf, repMax_lf]
      omega
  | case3 _ => rw [repMax_cr_nil]; simp
  | case4 ds _ ih =>
      rw [List.cons_append, List.cons_append, repMax_crlf, repMax_crlf]
      omega
  | case5 d ds hd _ =>
      rw [repMax_cr_not_lf d ds hd]
      simp
  | case6 d ds hd hd' =>
      rw [repMax_other d ds hd hd']
      simp

/-- The last character of a list, if any. -/
def lastc : List Char → Option Char
  | [] => none
  | [c] => some c
  | _ :: c :: cs => lastc (c :: cs)

theorem lastc_cons_cons (a c : Char) (cs : List Char) :
    lastc (a :: c :: cs) = lastc (c :: cs) := rfl

theorem lastc_append_right : ∀ (a b : List Char), b ≠ [] → lastc (a ++ b) = lastc b := by
  intro a
  induction a with
  | nil => intro b _; rfl
  | cons x a' ih =>
      intro b hb
      have hab : a' ++ b ≠ [] := by
        intro h
        rcases List.append_eq_nil.mp h with ⟨_, h2⟩
        exact hb h2
      rw [List.cons_append]
      cases h : a' ++ b with
      | nil => exact absurd h hab
      | cons y ys => rw [lastc_cons_cons, ← h, ih b hb]

theorem head?_append_left (l r : List Char) (h : l ≠ []) : (l ++ r).head? = l.head? := by
  cases l with
  | nil => exact absurd rfl h
  | cons c cs => rfl

theorem head?_reverse_eq_lastc : ∀ l : List Char, l.reverse.head? = lastc l := by
  intro l
  induction l with
  | nil => rfl
  | cons c cs ih =>
      rw [List.reverse_cons]
      cases cs with
      | nil => rfl
      | cons d ds =>
          have hcs : (d :: ds).reverse ≠ [] := by simp
          rw [lastc_cons_cons, head?_append_left (d :: ds).reverse [c] hcs, ih]

theorem lastc_reverse_eq_head? (l : List Char) : lastc l.reverse = l.head? := by
  rw [← head?_reverse_eq_lastc l.reverse, List.reverse_reverse]

theorem lastc_ne_nil (l : List Char) (c : Char) (h : lastc l = some c) : l ≠ [] := by
  intro hl
  rw [hl] at h
  cases h

theorem lastc_cons_of_ne (a c : Char) (l : List Char)
    (h : lastc (a :: l) = some c) (hne : c ≠ a) : lastc l = some c := by
  cases l with
  | nil => simp [lastc] at h; exact absurd h.symm hne
  | cons y ys => rw [lastc_cons_cons] at h; exact h

/-- When a string ends in a character that is neither a newline nor a
carriage return, the greedy scan stops strictly inside it, so appending a
suffix does not change the repetition count. -/
theorem repMax_append_stable (t : List Char) :
    ∀ (s : List Char) (c : Char), lastc s = some c → c ≠ '\n' → c ≠ '\r' →
      (repMax (s ++ t)).1 = (repMax s).1 := by
  intro s
  induction s using repMax.induct with
  | case1 => intro c hc _ _; cases hc
  | case2 ds ih =>
      intro c hc h1 h2
      have hlast : lastc ds = some c := lastc_cons_of_ne '\n' c ds hc h1
      rw [List.cons_append, repMax_lf, repMax_lf, ih c hlast h1 h2]
  | case3 _ =>
      intro c hc h1 h2
      simp [lastc] at hc
      exact absurd hc.symm h2
  | case4 ds _ ih =>
      intro c hc h1 h2
      rw [lastc_cons_cons] at hc
      have hlast : lastc ds = some c := lastc_cons_of_ne '\n' c ds hc h1
      rw [List.cons_append, List.cons_append, repMax_crlf, repMax_crlf,
        ih c hlast h1 h2]
  | case5 d ds hd _ =>
      intro c hc h1 h2
      rw [repMax_cr_not_lf d ds hd, List.cons_append, List.cons_append,
        repMax_cr_not_lf d (ds ++ t) hd]
  | case6 d ds hd hd' =>
      intro c hc h1 h2
      rw [List.cons_append, repMax_other d (ds ++ t) hd hd', repMax_other d ds hd hd']

theorem trySep_nil : trySep [] = none := rfl

theorem trySep_lt (s r : List Char) (h : trySep s = some r) : r.length < s.length := by
  unfold trySep at h
  by_cases h2 : 2 ≤ (repMax s).1
  · rw [if_pos h2] at h
    have hlen := repMax_len s
    have hr : (repMax s).2 = r := by
      injection h
    rw [← hr]
    omega
  · rw [if_neg h2] at h
    cases h

theorem trySep_none_of_append (u t : List Char) (h : trySep (u ++ t) = none) :
    trySep u = none := by
  unfold trySep at h ⊢
  by_cases h2 : 2 ≤ (repMax (u ++ t)).1
  · rw [if_pos h2] at h; cases h
  · have := repMax_append_le t u
    rw [if_neg (by omega)]

theorem trySep_append_stable (u t : List Char) (c : Char) (hc : lastc u = some c)
    (h1 : c ≠ '\n') (h2 : c ≠ '\r') (hu : trySep u = none) :
    trySep (u ++ t) = none := by
  unfold trySep at hu ⊢
  by_cases h3 : 2 ≤ (repMax u).1
  · rw [if_pos h3] at hu; cases hu
  · have hst := repMax_append_stable t u c hc h1 h2
    rw [if_neg (by omega)]

/-- re.split scanning: walk the string left to right; at each position try
the leftmost-greedy separator match; on a match, emit the accumulated part
and continue after the consumed run, else accumulate the character. -/
def splitSeps (acc : List Char) (s : List Char) : List (List Char) :=
  match s with
  | [] => [acc.reverse]
  | c :: cs =>
    match h : trySep (c :: cs) with
    | some rest => acc.reverse :: splitSeps [] rest
    | none => splitSeps (c :: acc) cs
termination_by s.length
decreasing_by
  · exact trySep_lt _ _ (by assumption)
  · simp

/-- split_into_paragraphs from the source: re.split of the blank-line
pattern over the stripped text, each part stripped, parts that strip to
empty discarded. -/
def split_into_paragraphs (text : List Char) : List (List Char) :=
  ((splitSeps [] (strip text)).map strip).filter (fun p => !p.isEmpty)

/-- Whether the separator pattern matches anywhere in the string (the
regex finds a blank-line separator somewhere). -/
def hasSep : List Char → Bool
  | [] => false
  | c :: cs => (trySep (c :: cs)).isSome || hasSep cs

theorem splitSeps_nil (acc : List Char) : splitSeps acc [] = [acc.reverse] := by
  rw [splitSeps]

theorem splitSeps_cons_some (acc c cs rest) (h : trySep (c :: cs) = some rest) :
    splitSeps acc (c :: cs) = acc.reverse :: splitSeps [] rest := by
  rw [splitSeps]
  split
  · rename_i r hr
    rw [h] at hr
    injection hr with hr
    rw [hr]
  · rename_i hr
    rw [h] at hr
    cases hr

theorem splitSeps_cons_none (acc c cs) (h : trySep (c :: cs) = none) :
    splitSeps acc (c :: cs) = splitSeps (c :: acc) cs := by
  rw [splitSeps]
  split
  · rename_i r hr; rw [h] at hr; cases hr
  · rfl

theorem hasSep_cons (c : Char) (cs : List Char) :
    hasSep (c :: cs) = ((trySep (c :: cs)).isSome || hasSep cs) := rfl

theorem hasSep_false_iff : ∀ s : List Char,
    hasSep s = false ↔ ∀ i, trySep (s.drop i) = none := by
  intro s
  induction s with
  | nil => simp [hasSep, List.drop_nil, trySep_nil]
  | cons c cs ih =>
      constructor
      · intro h i
        rw [hasSep_cons, Bool.or_eq_false_iff] at h
        cases i with
        | zero =>
            cases htry : trySep (c :: cs) with
            | none => rw [List.drop_zero]; exact htry
            | some r => rw [htry] at h; simp at h
        | succ j =>
            rw [List.drop_succ_cons]
            exact (ih.mp h.2) j
      · intro h
        rw [hasSep_cons, Bool.or_eq_false_iff]
        refine ⟨?_, ih.mpr (fun j => by have hj := h (j+1); rwa [List.drop_succ_cons] at hj)⟩
        have h0 := h 0
        rw [List.drop_zero] at h0
        simp [h0]

theorem drop_len_add (l₁ l₂ : List Char) :
    ∀ i, (l₁ ++ l₂).drop (l₁.length + i) = l₂.drop i := by
  induction l₁ with
  | nil => intro i; simp
  | cons x xs ih =>
      intro i
      have hn : (x :: xs).length + i = (xs.length + i) + 1 := by simp; omega
      rw [hn, List.cons_append, List.drop_succ_cons, ih]

theorem lastc_of_ne_nil : ∀ l : List Char, l ≠ [] → ∃ c, lastc l = some c := by
  intro l
  induction l with
  | nil => intro h; exact absurd rfl h
  | cons y ys ih =>
      intro _
      cases hy : ys with
      | nil => exact ⟨y, rfl⟩
      | cons z zs =>
          obtain ⟨c, hc⟩ := ih (by rw [hy]; simp)
          rw [hy] at hc
          refine ⟨c, ?_⟩
          rw [lastc_cons_cons]
          exact hc

theorem hasSep_false_infix (a m b : List Char) (h : hasSep (a ++ m ++ b) = false) :
    hasSep m = false := by
  rw [hasSep_false_iff] at h ⊢
  intro i
  cases htry : trySep (m.drop i) with
  | none => rfl
  | some r =>
      exfalso
      have hi : i ≤ m.length := by
        by_contra h'
        rw [List.drop_eq_nil_of_le (by omega)] at htry
        rw [trySep_nil] at htry
        cases htry
      have hmono : trySep (m.drop i ++ b) ≠ none := by
        intro hnone
        rw [trySep_none_of_append _ _ hnone] at htry
        cases htry
      have hdrop : (a ++ m ++ b).drop (a.length + i) = m.drop i ++ b := by
        rw [List.append_assoc, drop_len_add, List.drop_append_of_le_length hi]
      have := h (a.length + i)
      rw [hdrop] at this
      exact hmono this

theorem hasSep_false_append (a b : List Char)
    (ha : hasSep a = false)
    (hc : ∀ c, lastc a = some c → c ≠ '\n' ∧ c ≠ '\r')
    (hb : hasSep b = false) : hasSep (a ++ b) = false := by
  rw [hasSep_false_iff] at ha hb ⊢
  intro i
  by_cases hi : i < a.length
  · have hne : a.drop i ≠ [] := by
      intro h
      have hlen := congrArg List.length h
      simp at hlen
      omega
    obtain ⟨c, hcl⟩ := lastc_of_ne_nil _ hne
    have hlast : lastc a = some c := by
      conv_lhs => rw [← List.take_append_drop i a]
      rw [lastc_append_right _ _ hne]
      exact hcl
    obtain ⟨h1, h2⟩ := hc c hlast
    have hdrop : (a ++ b).drop i = a.drop i ++ b :=
      List.drop_append_of_le_length (by omega)
    rw [hdrop]
    exact trySep_append_stable (a.drop i) b c hcl h1 h2 (ha i)
  · have hsplit : i = a.length + (i - a.length) := by omega
    have hdrop : (a ++ b).drop i = b.drop (i - a.length) := by
      conv_lhs => rw [hsplit]
      rw [drop_len_add]
    rw [hdrop]
    exact hb (i - a.length)

theorem head?_dropWhile_not_ws : ∀ (l : List Char) (c : Char),
    (l.dropWhile isWS).head? = some c → isWS c = false := by
  intro l
  induction l with
  | nil => intro c h; cases h
  | cons a t ih =>
      intro c h
      rw [List.dropWhile_cons] at h
      by_cases ha : isWS a = true
      · rw [if_pos ha] at h; exact ih c h
      · rw [if_neg ha] at h
        injection h with h
        rw [← h]
        simpa using ha

theorem dropWhile_eq_self_ws (l : List Char)
    (h : ∀ c, l.head? = some c → isWS c = false) : l.dropWhile isWS = l := by
  cases l with
  | nil => rfl
  | cons a t => rw [List.dropWhile_cons, if_neg (by simp [h a rfl])]

theorem strip_head_not_ws (s : List Char) (c : Char)
    (h : (strip s).head? = some c) : isWS c = false := by
  unfold strip at h
  rw [head?_reverse_eq_lastc] at h
  have hYne : (s.dropWhile isWS).reverse.dropWhile isWS ≠ [] := lastc_ne_nil _ _ h
  have hdecomp : (s.dropWhile isWS).reverse.takeWhile isWS
      ++ (s.dropWhile isWS).reverse.dropWhile isWS = (s.dropWhile isWS).reverse :=
    List.takeWhile_append_dropWhile ..
  have h2 : lastc (s.dropWhile isWS).reverse = some c := by
    rw [← hdecomp, lastc_append_right _ _ hYne]
    exact h
  rw [lastc_reverse_eq_head?] at h2
  exact head?_dropWhile_not_ws s c h2

theorem strip_last_not_ws (s : List Char) (c : Char)
    (h : lastc (strip s) = some c) : isWS c = false := by
  unfold strip at h
  rw [lastc_reverse_eq_head?] at h
  exact head?_dropWhile_not_ws (s.dropWhile isWS).reverse c h

theorem strip_eq_self (s : List Char)
    (h1 : ∀ c, s.head? = some c → isWS c = false)
    (h2 : ∀ c, lastc s = some c → isWS c = false) : strip s = s := by
  unfold strip
  rw [dropWhile_eq_self_ws s h1,
    dropWhile_eq_self_ws s.reverse
      (fun c hc => h2 c (by rwa [head?_reverse_eq_lastc] at hc))]
  exact List.reverse_reverse s

theorem strip_idem (s : List Char) : strip (strip s) = strip s :=
  strip_eq_self (strip s) (strip_head_not_ws s) (strip_last_not_ws s)

theorem strip_infix (s : List Char) : ∃ a b, s = a ++ strip s ++ b := by
  refine ⟨s.takeWhile isWS, ((s.dropWhile isWS).reverse.takeWhile isWS).reverse, ?_⟩
  have hs : s.takeWhile isWS ++ s.dropWhile isWS = s :=
    List.takeWhile_append_dropWhile ..
  have hu : (s.dropWhile isWS).reverse.takeWhile isWS
      ++ (s.dropWhile isWS).reverse.dropWhile isWS = (s.dropWhile isWS).reverse :=
    List.takeWhile_append_dropWhile ..
  have hu2 : s.dropWhile isWS
      = strip s ++ ((s.dropWhile isWS).reverse.takeWhile isWS).reverse := by
    have hrev := congrArg List.reverse hu
    rw [List.reverse_append, List.reverse_reverse] at hrev
    unfold strip
    exact hrev.symm
  conv_lhs => rw [← hs, hu2]
  rw [List.append_assoc]

/-- No part emitted by the scan contains a separator match: the scan
checked every position (monotonicity of the greedy match under the suffix
that followed during scanning carries failures back to the bare part). -/
theorem splitSeps_parts_no_sep : ∀ (n : Nat) (s acc : List Char), s.length ≤ n →
    (∀ i, i < acc.length → trySep (acc.reverse.drop i ++ s) = none) →
    ∀ p ∈ splitSeps acc s, hasSep p = false := by
  intro n
  induction n with
  | zero =>
      intro s acc hs hinv p hp
      have hnil : s = [] := by
        cases s with
        | nil => rfl
        | cons c cs => simp at hs
      subst hnil
      rw [splitSeps_nil] at hp
      rcases List.mem_singleton.mp hp with rfl
      rw [hasSep_false_iff]
      intro i
      by_cases hi : i < acc.length
      · have := hinv i hi
        rwa [List.append_nil] at this
      · rw [List.drop_eq_nil_of_le (by simp; omega)]
        exact trySep_nil
  | succ n ih =>
      intro s acc hs hinv p hp
      cases s with
      | nil => exact ih [] acc (by simp) hinv p hp
      | cons c cs =>
          cases htry : trySep (c :: cs) with
          | some rest =>
              rw [splitSeps_cons_some acc c cs rest htry] at hp
              rcases List.mem_cons.mp hp with rfl | hp'
              · rw [hasSep_false_iff]
                intro i
                by_cases hi : i < acc.length
                · exact trySep_none_of_append _ _ (hinv i (by simpa using hi))
                · rw [List.drop_eq_nil_of_le (by simp; omega)]
                  exact trySep_nil
              · have hr : rest.length ≤ n := by
                  have hlt := trySep_lt (c :: cs) rest htry
                  simp at hs hlt
                  omega
                exact ih rest [] hr (fun i hi => absurd hi (by simp)) p hp'
          | none =>
              rw [splitSeps_cons_none acc c cs htry] at hp
              have hlen : cs.length ≤ n := by simp at hs; omega
              refine ih cs (c :: acc) hlen ?_ p hp
              intro i hi
              rw [List.reverse_cons]
              by_cases hic : i < acc.length
              · rw [List.drop_append_of_le_length (by simp; omega), List.append_assoc]
                simpa using hinv i hic
              · have hieq : i = acc.length := by simp at hi; omega
                subst hieq
                rw [show acc.length = acc.reverse.length + 0 by simp, drop_len_add]
                simpa using htry

/-- Every part of the split contains no separator. -/
theorem splitSeps_no_sep (s : List Char) :
    ∀ p ∈ splitSeps [] s, hasSep p = false :=
  splitSeps_parts_no_sep s.length s [] (le_refl _) (fun i hi => absurd hi (by simp))

/-- Scanning through a separator-free block that ends in a non-newline
character just accumulates it: trySep fails at every position inside the
block, also with the rest of the input appended. -/
theorem splitSeps_scan_through : ∀ (p : List Char) (t acc : List Char),
    hasSep p = false →
    (∀ c, lastc p = some c → c ≠ '\n' ∧ c ≠ '\r') →
    splitSeps acc (p ++ t) = splitSeps (p.reverse ++ acc) t := by
  intro p
  induction p with
  | nil => intro t acc _ _; rfl
  | cons c cs ih =>
      intro t acc hsep hlast
      have hcons : trySep (c :: (cs ++ t)) = none := by
        have h0 : trySep (c :: cs) = none := by
          rw [hasSep_false_iff] at hsep
          have := hsep 0
          rwa [List.drop_zero] at this
        have hne : c :: cs ≠ [] := by simp
        obtain ⟨d, hd⟩ := lastc_of_ne_nil (c :: cs) hne
        obtain ⟨h1, h2⟩ := hlast d hd
        have := trySep_append_stable (c :: cs) t d hd h1 h2 h0
        rwa [List.cons_append] at this
      rw [List.cons_append, splitSeps_cons_none acc c (cs ++ t) hcons]
      have hsep' : hasSep cs = false := by
        rw [hasSep_cons, Bool.or_eq_false_iff] at hsep
        exact hsep.2
      have hlast' : ∀ d, lastc cs = some d → d ≠ '\n' ∧ d ≠ '\r' := by
        intro d hd
        have hne := lastc_ne_nil cs d hd
        cases hcs : cs with
        | nil => exact absurd hcs hne
        | cons y ys =>
            refine hlast d ?_
            rw [hcs] at hd
            rw [hcs, lastc_cons_cons]
            exact hd
      rw [ih t (c :: acc) hsep' hlast']
      rw [List.reverse_cons, List.append_assoc]
      rfl

theorem splitSeps_single (p acc : List Char) (hsep : hasSep p = false)
    (hlast : ∀ c, lastc p = some c → c ≠ '\n' ∧ c ≠ '\r') :
    splitSeps acc p = [acc.reverse ++ p] := by
  have h := splitSeps_scan_through p [] acc hsep hlast
  rw [List.append_nil] at h
  rw [h, splitSeps_nil, List.reverse_append, List.reverse_reverse]

/-- Rejoining paragraphs with a blank-line separator (two newlines). -/
def joinNN : List (List Char) → List Char
  | [] => []
  | [p] => p
  | p :: q :: ps => p ++ '\n' :: '\n' :: joinNN (q :: ps)

/-- Shape of every paragraph produced by split_into_paragraphs: nonempty,
equal to its own strip, and containing no blank-line separator. -/
def GoodPart (p : List Char) : Prop := p ≠ [] ∧ strip p = p ∧ hasSep p = false

instance (p : List Char) : Decidable (GoodPart p) := by
  unfold GoodPart
  infer_instance

theorem goodPart_head_chars (p : List Char) (h : GoodPart p) :
    ∃ c, p.head? = some c ∧ c ≠ '\n' ∧ c ≠ '\r' := by
  obtain ⟨hne, hstrip, _⟩ := h
  cases hp : p with
  | nil => exact absurd hp hne
  | cons c cs =>
      have hws : isWS c = false := by
        apply strip_head_not_ws p c
        rw [hstrip, hp]
        rfl
      refine ⟨c, rfl, ?_, ?_⟩
      · intro he; rw [he] at hws; exact absurd hws (by decide)
      · intro he; rw [he] at hws; exact absurd hws (by decide)

theorem goodPart_lastc_not_nl (p : List Char) (h : GoodPart p) :
    ∀ c, lastc p = some c → c ≠ '\n' ∧ c ≠ '\r' := by
  intro c hc
  have hws : isWS c = false := strip_last_not_ws p c (by rw [h.2.1]; exact hc)
  constructor
  · intro he; rw [he] at hws; exact absurd hws (by decide)
  · intro he; rw [he] at hws; exact absurd hws (by decide)

theorem repMax_zero_of_head (s : List Char) (c : Char) (h : s.head? = some c)
    (h1 : c ≠ '\n') (h2 : c ≠ '\r') : repMax s = (0, s) := by
  cases s with
  | nil => cases h
  | cons a t =>
      have ha : a = c := by injection h
      subst ha
      exact repMax_other a t h1 h2

theorem lastc_cons_ne_nil (a : Char) (l : List Char) (h : l ≠ []) :
    lastc (a :: l) = lastc l := by
  cases l with
  | nil => exact absurd rfl h
  | cons y ys => exact lastc_cons_cons a y ys

theorem joinNN_ne_nil (p : List Char) (ps : List (List Char)) (hp : p ≠ []) :
    joinNN (p :: ps) ≠ [] := by
  cases ps with
  | nil => exact hp
  | cons r rs =>
      show p ++ '\n' :: '\n' :: joinNN (r :: rs) ≠ []
      simp

theorem joinNN_head? (q : List Char) (ps : List (List Char)) (hq : q ≠ []) :
    (joinNN (q :: ps)).head? = q.head? := by
  cases ps with
  | nil => rfl
  | cons r rs =>
      show (q ++ '\n' :: '\n' :: joinNN (r :: rs)).head? = q.head?
      exact head?_append_left q _ hq

theorem joinNN_lastc (p : List Char) : ∀ (ps : List (List Char)), p ≠ [] →
    (∀ q ∈ ps, q ≠ []) →
    ∃ q, (q = p ∨ q ∈ ps) ∧ lastc (joinNN (p :: ps)) = lastc q := by
  intro ps
  induction ps generalizing p with
  | nil => intro hp _; exact ⟨p, Or.inl rfl, rfl⟩
  | cons r rs ih =>
      intro hp hall
      obtain ⟨q, hq, hlast⟩ := ih r (hall r (by simp)) (fun x hx => hall x (by simp [hx]))
      refine ⟨q, Or.inr ?_, ?_⟩
      · rcases hq with rfl | hmem
        · simp
        · simp [hmem]
      · show lastc (p ++ '\n' :: '\n' :: joinNN (r :: rs)) = lastc q
        rw [lastc_append_right _ _ (by simp),
          lastc_cons_ne_nil _ _ (by simp),
          lastc_cons_ne_nil _ _ (joinNN_ne_nil r rs (hall r (by simp)))]
        exact hlast

theorem strip_joinNN (p : List Char) (ps : List (List Char))
    (hall : ∀ q ∈ p :: ps, GoodPart q) :
    strip (joinNN (p :: ps)) = joinNN (p :: ps) := by
  apply strip_eq_self
  · intro c hc
    rw [joinNN_head? p ps (hall p (by simp)).1] at hc
    apply strip_head_not_ws p c
    rw [(hall p (by simp)).2.1]
    exact hc
  · intro c hc
    obtain ⟨q, hq, hlast⟩ := joinNN_lastc p ps (hall p (by simp)).1
      (fun x hx => (hall x (by simp [hx])).1)
    rw [hlast] at hc
    have hgq : GoodPart q := by
      rcases hq with rfl | hmem
      · exact hall q (by simp)
      · exact hall q (by simp [hmem])
    apply strip_last_not_ws q c
    rw [hgq.2.1]
    exact hc

theorem splitSeps_joinNN : ∀ P : List (List Char), P ≠ [] →
    (∀ p ∈ P, GoodPart p) → splitSeps [] (joinNN P) = P := by
  intro P
  induction P with
  | nil => intro h _; exact absurd rfl h
  | cons p P' ih =>
      intro _ hall
      have hp : GoodPart p := hall p (List.mem_cons_self p P')
      cases P' with
      | nil =>
          show splitSeps [] p = [p]
          rw [splitSeps_single p [] hp.2.2 (goodPart_lastc_not_nl p hp)]
          rfl
      | cons q P'' =>
          have hq : GoodPart q := hall q (by simp)
          show splitSeps [] (p ++ '\n' :: '\n' :: joinNN (q :: P'')) = p :: q :: P''
          rw [splitSeps_scan_through p _ [] hp.2.2 (goodPart_lastc_not_nl p hp)]
          obtain ⟨cq, hcq, hcq1, hcq2⟩ := goodPart_head_chars q hq
          have hrep : repMax (joinNN (q :: P'')) = (0, joinNN (q :: P'')) :=
            repMax_zero_of_head _ cq
              (by rw [joinNN_head? q P'' hq.1]; exact hcq) hcq1 hcq2
          have htry : trySep ('\n' :: '\n' :: joinNN (q :: P''))
              = some (joinNN (q :: P'')) := by
            unfold trySep
            rw [repMax_lf, repMax_lf, hrep]
            simp
          rw [splitSeps_cons_some _ _ _ _ htry, List.append_nil, List.reverse_reverse,
            ih (by simp) (fun x hx => hall x (List.mem_cons_of_mem p hx))]

theorem ne_nil_isEmpty_false (l : List Char) (h : l ≠ []) : l.isEmpty = false := by
  cases l with
  | nil => exact absurd rfl h
  | cons a t => rfl

theorem split_nil : split_into_paragraphs [] = [] := by
  unfold split_into_paragraphs
  rw [show strip [] = [] from rfl, splitSeps_nil]
  rfl

/-- Splitting the blank-line rejoin of any sequence of good parts gives
back exactly that sequence. -/
theorem split_of_goodParts : ∀ P : List (List Char), (∀ p ∈ P, GoodPart p) →
    split_into_paragraphs (joinNN P) = P := by
  intro P hall
  cases P with
  | nil => exact split_nil
  | cons p ps =>
      unfold split_into_paragraphs
      rw [strip_joinNN p ps hall, splitSeps_joinNN (p :: ps) (by simp) hall]
      have hmap : (p :: ps).map strip = p :: ps := by
        rw [List.map_congr_left (fun q hq => (hall q hq).2.1), List.map_id']
      rw [hmap]
      rw [List.filter_eq_self.mpr ?_]
      intro q hq
      simp [ne_nil_isEmpty_false q (hall q hq).1]

theorem split_single (s : List Char) (h : GoodPart s) :
    split_into_paragraphs s = [s] :=
  split_of_goodParts [s]
    (fun p hp => by rcases List.mem_singleton.mp hp with rfl; exact h)

/-- A batch of exactly two paragraphs around one separator run. -/
theorem split_sep_two_parts (p q sep : List Char) (hp : GoodPart p) (hq : GoodPart q)
    (hsepne : sep ≠ []) (htry : trySep (sep ++ q) = some q) :
    split_into_paragraphs (p ++ sep ++ q) = [p, q] := by
  unfold split_into_paragraphs
  have hstrip : strip (p ++ sep ++ q) = p ++ sep ++ q := by
    apply strip_eq_self
    · intro c hc
      rw [List.append_assoc, head?_append_left p _ hp.1] at hc
      exact strip_head_not_ws p c (by rw [hp.2.1]; exact hc)
    · intro c hc
      rw [lastc_append_right _ _ hq.1] at hc
      exact strip_last_not_ws q c (by rw [hq.2.1]; exact hc)
  rw [hstrip, List.append_assoc,
    splitSeps_scan_through p _ [] hp.2.2 (goodPart_lastc_not_nl p hp)]
  cases hsep' : sep with
  | nil => exact absurd hsep' hsepne
  | cons c cs =>
      rw [hsep'] at htry
      rw [List.cons_append] at htry ⊢
      rw [splitSeps_cons_some _ _ _ _ htry,
        splitSeps_single q [] hq.2.2 (goodPart_lastc_not_nl q hq),
        List.append_nil, List.reverse_reverse]
      simp only [List.reverse_nil, List.nil_append]
      rw [List.map_cons, List.map_cons, List.map_nil, hp.2.1, hq.2.1]
      rw [List.filter_cons, List.filter_cons, List.filter_nil]
      simp [ne_nil_isEmpty_false p hp.1, ne_nil_isEmpty_false q hq.1]

/-- C8: split is idempotent on its own output rejoined with blank-line
separators; no empty string appears in the result; empty input yields the
empty sequence. -/
theorem split_idempotent_no_empty (text : List Char) :
    split_into_paragraphs (joinNN (split_into_paragraphs text))
      = split_into_paragraphs text
    ∧ (∀ p ∈ split_into_paragraphs text, p ≠ [])
    ∧ split_into_paragraphs [] = [] := by
  have hgood : ∀ p ∈ split_into_paragraphs text, GoodPart p := by
    intro p hp
    unfold split_into_paragraphs at hp
    rw [List.mem_filter] at hp
    obtain ⟨hpm, hne⟩ := hp
    obtain ⟨q, hq, rfl⟩ := List.mem_map.mp hpm
    have hqsep : hasSep q = false := splitSeps_no_sep (strip text) q hq
    obtain ⟨a, b, hab⟩ := strip_infix q
    refine ⟨by simpa using hne, strip_idem q, ?_⟩
    exact hasSep_false_infix a (strip q) b (hab ▸ hqsep)
  exact ⟨split_of_goodParts _ hgood, fun p hp => (hgood p hp).1, split_nil⟩

/-- C7 counterexample: a line holding a single space is not treated as a
blank line.  "A\n \nB" — two non-blank parts separated by a line holding
one space — stays a single paragraph, not the two paragraphs the claim
requires. -/
theorem ws_only_line_not_boundary_cex :
    split_into_paragraphs ("A\n \nB".toList) = ["A\n \nB".toList]
    ∧ split_into_paragraphs ("A\n \nB".toList) ≠ ["A".toList, "B".toList] := by
  have h1 : split_into_paragraphs ("A\n \nB".toList) = ["A\n \nB".toList] :=
    split_single _ (by decide)
  refine ⟨h1, ?_⟩
  rw [h1]
  decide

/-- C7 (amended): a paragraph boundary is a run of two or more consecutive
newline sequences (optional carriage return + newline) with nothing else
between them: both LF LF and CRLF CRLF separate two clean parts into two
paragraphs, while a line holding a single space between two clean parts is
not a boundary — the text stays one paragraph. -/
theorem blank_line_boundary_amended (p q : List Char)
    (hp : GoodPart p) (hq : GoodPart q) :
    split_into_paragraphs (p ++ ['\n', '\n'] ++ q) = [p, q]
    ∧ split_into_paragraphs (p ++ ['\r', '\n', '\r', '\n'] ++ q) = [p, q]
    ∧ split_into_paragraphs (p ++ ['\n', ' ', '\n'] ++ q)
      = [p ++ ['\n', ' ', '\n'] ++ q] := by
  obtain ⟨cq, hcq, hcq1, hcq2⟩ := goodPart_head_chars q hq
  have hq0 : repMax q = (0, q) := repMax_zero_of_head q cq hcq hcq1 hcq2
  have hts : ∀ (s r : List Char) (n : Nat), repMax s = (n, r) → 2 ≤ n →
      trySep s = some r := by
    intro s r n h h2
    unfold trySep
    rw [h]
    simp [h2]
  refine ⟨?_, ?_, ?_⟩
  · refine split_sep_two_parts p q ['\n', '\n'] hp hq (by simp) ?_
    refine hts _ q 2 ?_ (by omega)
    show repMax ('\n' :: '\n' :: q) = (2, q)
    rw [repMax_lf, repMax_lf, hq0]
  · refine split_sep_two_parts p q ['\r', '\n', '\r', '\n'] hp hq (by simp) ?_
    refine hts _ q 2 ?_ (by omega)
    show repMax ('\r' :: '\n' :: '\r' :: '\n' :: q) = (2, q)
    rw [repMax_crlf, repMax_crlf, hq0]
  · have hs3 : hasSep ('\n' :: ' ' :: '\n' :: q) = false := by
      have t3 : trySep ('\n' :: q) = none := by
        unfold trySep
        rw [repMax_lf, hq0]
        simp
      have t2 : trySep (' ' :: '\n' :: q) = none := by
        unfold trySep
        rw [repMax_other ' ' _ (by decide) (by decide)]
        simp
      have t1 : trySep ('\n' :: ' ' :: '\n' :: q) = none := by
        unfold trySep
        rw [repMax_lf, repMax_other ' ' _ (by decide) (by decide)]
        simp
      rw [hasSep_cons, t1, hasSep_cons, t2, hasSep_cons, t3]
      simp [hq.2.2]
    have hwhole : GoodPart (p ++ ['\n', ' ', '\n'] ++ q) := by
      refine ⟨by simp [hp.1], ?_, ?_⟩
      · apply strip_eq_self
        · intro c hc
          rw [List.append_assoc, head?_append_left p _ hp.1] at hc
          exact strip_head_not_ws p c (by rw [hp.2.1]; exact hc)
        · intro c hc
          rw [lastc_append_right _ _ hq.1] at hc
          exact strip_last_not_ws q c (by rw [hq.2.1]; exact hc)
      · rw [List.append_assoc]
        refine hasSep_false_append p _ hp.2.2 (goodPart_lastc_not_nl p hp) ?_
        show hasSep ('\n' :: ' ' :: '\n' :: q) = false
        exact hs3
    exact split_single _ hwhole

/-- Witness for C7 (amended) at the concrete parts A and B. -/
theorem blank_line_boundary_amended_witness :
    (GoodPart ("A".toList) ∧ GoodPart ("B".toList))
    ∧ (split_into_paragraphs ("A".toList ++ ['\n', '\n'] ++ "B".toList)
        = ["A".toList, "B".toList]
      ∧ split_into_paragraphs ("A".toList ++ ['\r', '\n', '\r', '\n'] ++ "B".toList)
        = ["A".toList, "B".toList]
      ∧ split_into_paragraphs ("A".toList ++ ['\n', ' ', '\n'] ++ "B".toList)
        = ["A".toList ++ ['\n', ' ', '\n'] ++ "B".toList]) :=
  ⟨⟨by decide, by decide⟩,
    blank_line_boundary_amended "A".toList "B".toList (by decide) (by decide)⟩
